import Mathlib

/-!
# Verification of a brainfuck lexer and interpreter

Shallow embedding of the repository's `src/lexer.rs` and `src/interpreter.rs`
(the `Lexer` and `SimpleInterpreter` of the crate).  Rust `Vec<u8>` cells are
modelled as `List Nat` with explicit `% 256` arithmetic for the `u8`
wrapping operations; the `HashMap<usize, usize>` jump table is modelled as an
association list where `insert` conses at the front (later inserts shadow
earlier ones, as `HashMap::insert` overwrites); Rust `Result` errors become an
explicit `err` outcome, and the places where the Rust code can panic
(out-of-bounds cell index, `.unwrap()` on a jump-table lookup, indexing the
first byte of an empty input line) become an explicit `panic` outcome.
The console is made explicit: `output` accumulates the bytes printed by `.`
and `stdinQueue` holds the first byte of each line `,` would read.
The interpreter's main loop is given a fuel parameter, since a brainfuck
program need not terminate.
-/

namespace BF

/-- Source position, as in `lexer.rs::Location`. -/
structure Location where
  line : Nat
  col : Nat
deriving DecidableEq

/-- A value paired with a source location, as in `lexer.rs::Annotation<T>`. -/
structure Annotation (T : Type) where
  value : T
  location : Location
deriving DecidableEq

/-- The eight instruction kinds of `lexer.rs::TokenKind`. -/
inductive TokenKind where
  | IncrementPointer
  | DecrementPointer
  | Increment
  | Decrement
  | Output
  | Input
  | JumpForward
  | JumpBackward
deriving DecidableEq

/-- `lexer.rs::Token = Annotation<TokenKind>`. -/
abbrev Token := Annotation TokenKind

/-- `interpreter.rs::InterpreterErrorKind`. -/
inductive InterpreterErrorKind where
  | UnmatchedJumpForwardError
  | UnmatchedJumpBackwardError
  | PointerError
deriving DecidableEq

/-- `interpreter.rs::InterpreterError = Annotation<InterpreterErrorKind>`. -/
abbrev InterpreterError := Annotation InterpreterErrorKind

/-- The byte-to-token arm of the `match` in `Lexer::lex` (the eight command
bytes; `62 = >`, `60 = <`, `43 = +`, `45 = -`, `46 = .`, `44 = ,`,
`91 = [`, `93 = ]`). -/
def tokenOfByte (b : Nat) (line col : Nat) : Option Token :=
  if b = 62 then some ⟨.IncrementPointer, ⟨line, col⟩⟩
  else if b = 60 then some ⟨.DecrementPointer, ⟨line, col⟩⟩
  else if b = 43 then some ⟨.Increment, ⟨line, col⟩⟩
  else if b = 45 then some ⟨.Decrement, ⟨line, col⟩⟩
  else if b = 46 then some ⟨.Output, ⟨line, col⟩⟩
  else if b = 44 then some ⟨.Input, ⟨line, col⟩⟩
  else if b = 91 then some ⟨.JumpForward, ⟨line, col⟩⟩
  else if b = 93 then some ⟨.JumpBackward, ⟨line, col⟩⟩
  else none

/-- The loop of `Lexer::lex` over the source bytes: byte `10` (newline)
increments `line` and resets `col` to `0`, after which the unconditional
per-byte `col += 1` makes the next byte land at column 1; a command byte
emits a token; any other byte is skipped. -/
def lexBytes : List Nat → Nat → Nat → List Token
  | [], _, _ => []
  | b :: rest, line, col =>
    if b = 10 then lexBytes rest (line + 1) (0 + 1)
    else
      match tokenOfByte b line col with
      | some t => t :: lexBytes rest line (col + 1)
      | none => lexBytes rest line (col + 1)

/-- UTF-8 encoding of a single code point, as a list of byte values
(the standard 1–4 byte encoding; spelled out here because it must reduce
inside the kernel). -/
def utf8Bytes (n : Nat) : List Nat :=
  if n ≤ 0x7f then [n]
  else if n ≤ 0x7ff then [0xc0 + n / 64, 0x80 + n % 64]
  else if n ≤ 0xffff then [0xe0 + n / 4096, 0x80 + (n / 64) % 64, 0x80 + n % 64]
  else [0xf0 + n / 262144, 0x80 + (n / 4096) % 64, 0x80 + (n / 64) % 64, 0x80 + n % 64]

/-- The UTF-8 bytes of a string: Rust's `input.as_bytes()`. -/
def strBytes (s : String) : List Nat :=
  s.data.flatMap (fun c => utf8Bytes c.toNat)

/-- `Lexer::lex`: iterate over the UTF-8 bytes of the source starting at
line 1, column 1. -/
def lex (input : String) : List Token :=
  lexBytes (strBytes input) 1 1

/-- The kinds of Rust panic the interpreter code can hit. -/
inductive PanicKind where
  /-- `self.cells[self.pointer]` with the pointer out of bounds. -/
  | cellIndex
  /-- `self.jump_table.get(..).unwrap()` on a missing key. -/
  | jumpLookup
  /-- `buf.as_bytes()[0]` on an empty input line. -/
  | inputEmpty
deriving DecidableEq

/-- `interpreter.rs::SimpleInterpreter`'s fields, plus the explicit console
(`output`, `stdinQueue`). -/
structure IState where
  pointer : Nat
  programCursor : Nat
  cells : List Nat
  program : List Token
  inputStream : Option String
  jumpTable : List (Nat × Nat)
  output : List Nat
  stdinQueue : List Nat
deriving DecidableEq

/-- `SimpleInterpreter::new()` (with an empty console). -/
def IState.new : IState :=
  { pointer := 0
    programCursor := 0
    cells := [0]
    program := []
    inputStream := none
    jumpTable := []
    output := []
    stdinQueue := [] }

/-- `HashMap::insert`: the new binding shadows any older binding of the
same key. -/
def tableInsert (t : List (Nat × Nat)) (k v : Nat) : List (Nat × Nat) :=
  (k, v) :: t

/-- `HashMap::get`: the most recent binding of the key, if any. -/
def tableGet (t : List (Nat × Nat)) (k : Nat) : Option Nat :=
  (t.find? (fun e => e.1 == k)).map (fun e => e.2)

/-- Outcome of executing one command: the Rust per-command methods return
`Result<usize, InterpreterError>` while mutating `&mut self`; panics are
made explicit. -/
inductive StepResult where
  | ok (s : IState)
  | err (s : IState) (e : InterpreterError)
  | panic (s : IState) (k : PanicKind)
deriving DecidableEq

/-- `SimpleInterpreter::eval_increment_pointer`. -/
def evalIncrementPointer (s : IState) (_cmd : Token) : StepResult :=
  let p := s.pointer + 1
  let cells := if s.cells.length ≤ p then s.cells ++ [0] else s.cells
  .ok { s with pointer := p, cells := cells, programCursor := s.programCursor + 1 }

/-- `SimpleInterpreter::eval_decrement_pointer`. -/
def evalDecrementPointer (s : IState) (cmd : Token) : StepResult :=
  if s.pointer = 0 then
    .err s ⟨.PointerError, cmd.location⟩
  else
    .ok { s with pointer := s.pointer - 1, programCursor := s.programCursor + 1 }

/-- `SimpleInterpreter::eval_increment` (`u8::wrapping_add(1)`). -/
def evalIncrement (s : IState) (_cmd : Token) : StepResult :=
  if s.pointer < s.cells.length then
    .ok { s with cells := s.cells.set s.pointer ((s.cells.getD s.pointer 0 + 1) % 256)
                 programCursor := s.programCursor + 1 }
  else .panic s .cellIndex

/-- `SimpleInterpreter::eval_decrement` (`u8::wrapping_sub(1)`; on a cell
value `< 256` adding 255 mod 256 is subtracting 1 with wraparound). -/
def evalDecrement (s : IState) (_cmd : Token) : StepResult :=
  if s.pointer < s.cells.length then
    .ok { s with cells := s.cells.set s.pointer ((s.cells.getD s.pointer 0 + 255) % 256)
                 programCursor := s.programCursor + 1 }
  else .panic s .cellIndex

/-- `SimpleInterpreter::eval_output` (`print!` of the current cell). -/
def evalOutput (s : IState) (_cmd : Token) : StepResult :=
  if s.pointer < s.cells.length then
    .ok { s with output := s.output ++ [s.cells.getD s.pointer 0]
                 programCursor := s.programCursor + 1 }
  else .panic s .cellIndex

/-- `SimpleInterpreter::eval_input`: read a line from stdin, store its first
byte in the current cell (panicking if the line is empty). -/
def evalInput (s : IState) (_cmd : Token) : StepResult :=
  match s.stdinQueue with
  | [] => .panic s .inputEmpty
  | b :: rest =>
    if s.pointer < s.cells.length then
      .ok { s with cells := s.cells.set s.pointer (b % 256)
                   stdinQueue := rest
                   programCursor := s.programCursor + 1 }
    else .panic { s with stdinQueue := rest } .cellIndex

/-- `SimpleInterpreter::eval_jump_forward`: fall through on a non-zero cell,
else jump to `jump_table[program_cursor]` (panicking if the key is absent). -/
def evalJumpForward (s : IState) (_cmd : Token) : StepResult :=
  if s.pointer < s.cells.length then
    if s.cells.getD s.pointer 0 ≠ 0 then
      .ok { s with programCursor := s.programCursor + 1 }
    else
      match tableGet s.jumpTable s.programCursor with
      | some j => .ok { s with programCursor := j }
      | none => .panic s .jumpLookup
  else .panic s .cellIndex

/-- `SimpleInterpreter::eval_jump_backward`: fall through on a zero cell,
else jump to `jump_table[program_cursor]` (panicking if the key is absent). -/
def evalJumpBackward (s : IState) (_cmd : Token) : StepResult :=
  if s.pointer < s.cells.length then
    if s.cells.getD s.pointer 0 = 0 then
      .ok { s with programCursor := s.programCursor + 1 }
    else
      match tableGet s.jumpTable s.programCursor with
      | some j => .ok { s with programCursor := j }
      | none => .panic s .jumpLookup
  else .panic s .cellIndex

/-- The dispatch `match` in `SimpleInterpreter::eval`'s main loop. -/
def stepCommand (s : IState) (cmd : Token) : StepResult :=
  match cmd.value with
  | .IncrementPointer => evalIncrementPointer s cmd
  | .DecrementPointer => evalDecrementPointer s cmd
  | .Increment => evalIncrement s cmd
  | .Decrement => evalDecrement s cmd
  | .Output => evalOutput s cmd
  | .Input => evalInput s cmd
  | .JumpForward => evalJumpForward s cmd
  | .JumpBackward => evalJumpBackward s cmd

/-- Placeholder token used with `List.getD` at indices that are separately
known to be in bounds (Rust indexing would panic out of bounds; every use
below is at a checked index). -/
def dummyToken : Token := ⟨.Increment, ⟨0, 0⟩⟩

/-- The bracket-resolution loop of `SimpleInterpreter::init`: `i` is the
index of the head of the remaining token list, `stack` the pending
forward-bracket positions (head = most recently pushed), `table` the jump
table built so far (inserts from earlier iterations persist even when the
scan fails).  On `]` with a non-empty stack the code performs
`insert(i, forward)` then `insert(forward, i)`; on `]` with an empty stack
it returns `UnmatchedJumpForwardError` at that token's location. -/
def initScan : List Token → Nat → List Nat → List (Nat × Nat) →
    List (Nat × Nat) × List Nat × Option InterpreterError
  | [], _, stack, table => (table, stack, none)
  | t :: rest, i, stack, table =>
    match t.value with
    | .JumpForward => initScan rest (i + 1) (i :: stack) table
    | .JumpBackward =>
      match stack with
      | f :: stack' => initScan rest (i + 1) stack' (tableInsert (tableInsert table i f) f i)
      | [] => (table, stack, some ⟨.UnmatchedJumpForwardError, t.location⟩)
    | _ => initScan rest (i + 1) stack table

/-- `SimpleInterpreter::init`: reset the cells to `[0]` (the pointer, the
program cursor and the existing jump table are *not* reset), scan the
program, and if forward brackets remain on the stack fail with
`UnmatchedJumpForwardError` at the bottommost one (`forward_brackets[0]`,
the last element of the cons-list stack). -/
def init (s : IState) : IState × Option InterpreterError :=
  let s1 := { s with cells := [0] }
  match initScan s1.program 0 [] s1.jumpTable with
  | (table, _, some e) => ({ s1 with jumpTable := table }, some e)
  | (table, stack, none) =>
    if stack.isEmpty then
      ({ s1 with jumpTable := table }, none)
    else
      ({ s1 with jumpTable := table },
       some ⟨.UnmatchedJumpForwardError,
             ((s1.program.getD (stack.getLastD 0) dummyToken).location)⟩)

/-- Outcome of a bounded run of the main loop. -/
inductive EvalResult where
  | ok (s : IState)
  | err (s : IState) (e : InterpreterError)
  | panic (s : IState) (k : PanicKind)
  | outOfFuel (s : IState)
deriving DecidableEq

/-- The `while self.program_cursor < self.program.len()` loop of
`SimpleInterpreter::eval`, with fuel. -/
def evalLoop : Nat → IState → EvalResult
  | 0, s => .outOfFuel s
  | fuel + 1, s =>
    if s.programCursor < s.program.length then
      match stepCommand s (s.program.getD s.programCursor dummyToken) with
      | .ok s' => evalLoop fuel s'
      | .err s' e => .err s' e
      | .panic s' k => .panic s' k
    else .ok s

/-- `SimpleInterpreter::eval`: store the program, run `init` (returning its
error if any), then run the main loop. -/
def eval (s : IState) (program : List Token) (fuel : Nat) : EvalResult :=
  let s1 := { s with program := program }
  match init s1 with
  | (s2, some e) => .err s2 e
  | (s2, none) => evalLoop fuel s2

/-! ## Specification-level notions: bracket counts, balance, matching -/

/-- Number of forward brackets in a token list. -/
def cJF (ts : List Token) : Nat :=
  ts.countP (fun t => decide (t.value = .JumpForward))

/-- Number of backward brackets in a token list. -/
def cJB (ts : List Token) : Nat :=
  ts.countP (fun t => decide (t.value = .JumpBackward))

/-- A token list has balanced brackets: no prefix has more `]` than `[`,
and the totals agree.  (The quantifier is bounded to keep the predicate
decidable; `take` saturates beyond the length.) -/
def balanced (ts : List Token) : Prop :=
  (∀ n, n ≤ ts.length → cJB (ts.take n) ≤ cJF (ts.take n)) ∧ cJF ts = cJB ts

instance (ts : List Token) : Decidable (balanced ts) := by
  unfold balanced
  infer_instance

/-- The token kind at an index (placeholder beyond the end). -/
def kindAt (ts : List Token) (i : Nat) : TokenKind :=
  (ts.getD i dummyToken).value

/-- `b` is the matching backward bracket of the forward bracket `f`:
`f < b`, both in range, `prog[f] = [`, `prog[b] = ]`, and the tokens
strictly between them are balanced.  In a balanced program this determines
`b` uniquely from `f` and vice versa. -/
def isMatch (prog : List Token) (f b : Nat) : Prop :=
  f < b ∧ b < prog.length ∧ kindAt prog f = .JumpForward ∧
    kindAt prog b = .JumpBackward ∧ balanced ((prog.drop (f + 1)).take (b - (f + 1)))

instance (prog : List Token) (f b : Nat) : Decidable (isMatch prog f b) := by
  unfold isMatch
  infer_instance

/-! ## Counting lemmas -/

/-! ## The bracket-resolution invariant

Invariant of `initScan` after consuming the prefix `done` of the program,
with pending forward-bracket stack `stack` (head = most recent) and jump
table `table` (as built from an empty table). -/

structure ScanInv (done : List Token) (stack : List Nat)
    (table : List (Nat × Nat)) : Prop where
  stack_lt : ∀ f ∈ stack, f < done.length
  stack_kind : ∀ f ∈ stack, kindAt done f = .JumpForward
  stack_sorted : List.Pairwise (fun x y => y < x) stack
  stack_net : ∀ j, j < stack.length →
    cJF (done.drop (stack.getD j 0 + 1)) = cJB (done.drop (stack.getD j 0 + 1)) + j
  stack_pfx : ∀ j, j < stack.length → ∀ n,
    cJB ((done.drop (stack.getD j 0 + 1)).take n) ≤
      cJF ((done.drop (stack.getD j 0 + 1)).take n)
  tab_lt : ∀ p ∈ table, p.1 < done.length ∧ p.2 < done.length
  tab_stack_disj : ∀ p ∈ table, p.1 ∉ stack
  tab_nodup : (table.map Prod.fst).Nodup
  tab_sym : ∀ p ∈ table, (p.2, p.1) ∈ table
  tab_match : ∀ p ∈ table, isMatch done p.1 p.2 ∨ isMatch done p.2 p.1
  match_tab : ∀ f b, isMatch done f b → (f, b) ∈ table
  net_total : cJF done = cJB done + stack.length
  jf_cover : ∀ j, j < done.length → kindAt done j = .JumpForward →
    j ∈ stack ∨ j ∈ table.map Prod.fst
  jb_cover : ∀ j, j < done.length → kindAt done j = .JumpBackward →
    j ∈ table.map Prod.fst

/-- Every bracket position of the program has a jump-table entry. -/
def covered (s : IState) : Prop :=
  ∀ j, j < s.program.length →
    (kindAt s.program j = .JumpForward ∨ kindAt s.program j = .JumpBackward) →
    tableGet s.jumpTable j ≠ none

/-- The instruction a recognized byte maps to (specification-level
counterpart of `tokenOfByte`, forgetting locations). -/
def byteToKind (b : Nat) : Option TokenKind :=
  if b = 62 then some .IncrementPointer
  else if b = 60 then some .DecrementPointer
  else if b = 43 then some .Increment
  else if b = 45 then some .Decrement
  else if b = 46 then some .Output
  else if b = 44 then some .Input
  else if b = 91 then some .JumpForward
  else if b = 93 then some .JumpBackward
  else none

/-- The one-instruction program `+`, used to exercise repeated `eval`. -/
def progPlus : List Token := [⟨.Increment, ⟨1, 1⟩⟩]

/-- A fresh interpreter that has just built the jump table for `[]`. -/
def c5State : IState :=
  { IState.new with program := lex "[]", jumpTable := [(0, 1), (1, 0)] }

theorem cJF_append (a b : List Token) : cJF (a ++ b) = cJF a + cJF b :=
  List.countP_append _ a b

theorem cJB_append (a b : List Token) : cJB (a ++ b) = cJB a + cJB b :=
  List.countP_append _ a b

theorem cJF_singleton (t : Token) :
    cJF [t] = if t.value = .JumpForward then 1 else 0 := by
  simp [cJF, List.countP_cons]

theorem cJB_singleton (t : Token) :
    cJB [t] = if t.value = .JumpBackward then 1 else 0 := by
  simp [cJB, List.countP_cons]

theorem cJF_cons (t : Token) (l : List Token) :
    cJF (t :: l) = cJF l + if t.value = .JumpForward then 1 else 0 := by
  simp [cJF, List.countP_cons]

theorem cJB_cons (t : Token) (l : List Token) :
    cJB (t :: l) = cJB l + if t.value = .JumpBackward then 1 else 0 := by
  simp [cJB, List.countP_cons]

theorem balanced_iff (ts : List Token) :
    balanced ts ↔ ((∀ n, cJB (ts.take n) ≤ cJF (ts.take n)) ∧ cJF ts = cJB ts) := by
  constructor
  · rintro ⟨hp, he⟩
    refine ⟨fun n => ?_, he⟩
    rcases le_or_lt n ts.length with h | h
    · exact hp n h
    · rw [List.take_of_length_le h.le]
      omega
  · rintro ⟨hp, he⟩
    exact ⟨fun n _ => hp n, he⟩

/-- Extending a list by one token preserves the prefix-count condition as
soon as the full extended list satisfies it. -/
theorem pfx_append_single (L : List Token) (t : Token)
    (hp : ∀ n, cJB (L.take n) ≤ cJF (L.take n))
    (hlast : cJB (L ++ [t]) ≤ cJF (L ++ [t])) :
    ∀ n, cJB ((L ++ [t]).take n) ≤ cJF ((L ++ [t]).take n) := by
  intro n
  rcases le_or_lt n L.length with h | h
  · rw [List.take_append_eq_append_take, Nat.sub_eq_zero_of_le h]
    simpa using hp n
  · rw [List.take_of_length_le (by simpa using h)]
    exact hlast

/-! ## Jump-table lookup lemmas -/

theorem tableGet_eq_none_iff (t : List (Nat × Nat)) (k : Nat) :
    tableGet t k = none ↔ k ∉ t.map Prod.fst := by
  induction t with
  | nil => simp [tableGet]
  | cons p rest ih =>
    by_cases h : p.1 = k
    · simp [tableGet, List.find?, h]
    · simp only [tableGet, List.find?] at ih ⊢
      rw [show (p.1 == k) = false by simpa using h]
      simp only [List.map_cons, List.mem_cons]
      rw [ih]
      constructor
      · intro hk hc
        rcases hc with hc | hc
        · exact h hc.symm
        · exact hk hc
      · intro hk hc
        exact hk (Or.inr hc)

theorem tableGet_of_mem (t : List (Nat × Nat)) (k v : Nat)
    (hmem : (k, v) ∈ t) (hnd : (t.map Prod.fst).Nodup) :
    tableGet t k = some v := by
  induction t with
  | nil => simp at hmem
  | cons p rest ih =>
    rw [List.map_cons, List.nodup_cons] at hnd
    rcases List.mem_cons.mp hmem with h | h
    · rw [← h]
      simp [tableGet, List.find?]
    · have hk : p.1 ≠ k := by
        intro he
        exact hnd.1 (he ▸ (List.mem_map.mpr ⟨(k, v), h, rfl⟩))
      simp only [tableGet, List.find?]
      rw [show (p.1 == k) = false by simpa using hk]
      exact ih h hnd.2

theorem mem_of_tableGet (t : List (Nat × Nat)) (k v : Nat)
    (h : tableGet t k = some v) : (k, v) ∈ t := by
  induction t with
  | nil => simp [tableGet] at h
  | cons p rest ih =>
    by_cases hk : p.1 = k
    · simp only [tableGet, List.find?] at h
      rw [show (p.1 == k) = true by simpa using hk] at h
      have h2 : p.2 = v := by simpa using h
      have hp : p = (k, v) := by
        cases p
        simp_all
      rw [hp]
      exact List.mem_cons_self _ _
    · simp only [tableGet, List.find?] at h
      rw [show (p.1 == k) = false by simpa using hk] at h
      exact List.mem_cons_of_mem _ (ih h)

/-- A key of the table has a lookup result. -/
theorem tableGet_isSome_of_mem_keys (t : List (Nat × Nat)) (k : Nat)
    (h : k ∈ t.map Prod.fst) : tableGet t k ≠ none := by
  intro hn
  exact (tableGet_eq_none_iff t k).mp hn h

/-! ## List index and slice helpers -/

theorem getD_append_lt {α : Type} (l1 l2 : List α) (d : α) (n : Nat)
    (h : n < l1.length) : (l1 ++ l2).getD n d = l1.getD n d := by
  rw [List.getD_eq_getElem?_getD, List.getD_eq_getElem?_getD, List.getElem?_append]
  simp [h]

theorem getD_append_len {α : Type} (l1 : List α) (t : α) (l2 : List α) (d : α) :
    (l1 ++ t :: l2).getD l1.length d = t := by
  rw [List.getD_eq_getElem?_getD, List.getElem?_append]
  simp

theorem kindAt_append_lt (done rest : List Token) (i : Nat) (h : i < done.length) :
    kindAt (done ++ rest) i = kindAt done i := by
  unfold kindAt
  rw [getD_append_lt _ _ _ _ h]

theorem kindAt_append_len (done : List Token) (t : Token) (rest : List Token) :
    kindAt (done ++ t :: rest) done.length = t.value := by
  unfold kindAt
  rw [getD_append_len]

/-- A slice lying inside `done` is unchanged by appending tokens. -/
theorem slice_append_eq (done ts : List Token) (f b : Nat) (hf : f + 1 ≤ b)
    (hb : b ≤ done.length) :
    ((done ++ ts).drop (f + 1)).take (b - (f + 1)) =
      (done.drop (f + 1)).take (b - (f + 1)) := by
  have h1 : f + 1 ≤ done.length := le_trans hf hb
  have h2 : b - (f + 1) ≤ (done.drop (f + 1)).length := by
    rw [List.length_drop]
    omega
  rw [List.drop_append_eq_append_drop, Nat.sub_eq_zero_of_le h1, List.drop_zero,
      List.take_append_eq_append_take, Nat.sub_eq_zero_of_le h2, List.take_zero,
      List.append_nil]

theorem take_len_sub_drop (done : List Token) (f : Nat) :
    (done.drop (f + 1)).take (done.length - (f + 1)) = done.drop (f + 1) := by
  have h : done.length - (f + 1) = (done.drop (f + 1)).length :=
    (List.length_drop _ _).symm
  rw [h, List.take_length]

/-- Splitting the suffix `L.drop i` at an inner position `j`. -/
theorem drop_decomp (L : List Token) (i j : Nat) (hij : i ≤ j) (hj : j < L.length) :
    L.drop i = (L.drop i).take (j - i) ++ L[j] :: L.drop (j + 1) := by
  conv_lhs => rw [← List.take_append_drop (j - i) (L.drop i)]
  rw [List.drop_drop, show i + (j - i) = j by omega, List.drop_eq_getElem_cons hj]

/-- A list that decomposes as `A ++ [ ++ B` with `B` bracket-neutral and
whose prefixes never go `]`-heavy cannot be bracket-neutral overall. -/
theorem decomp_contra (A B : List Token) (t : Token) (ht : t.value = .JumpForward)
    (hB : cJF B = cJB B)
    (hpfx : ∀ n, cJB ((A ++ t :: B).take n) ≤ cJF ((A ++ t :: B).take n))
    (heq : cJF (A ++ t :: B) = cJB (A ++ t :: B)) : False := by
  have hA : cJB A ≤ cJF A := by
    have h := hpfx A.length
    rw [List.take_append_eq_append_take, Nat.sub_self, List.take_zero, List.append_nil,
        List.take_length] at h
    exact h
  have hc1 : cJF (t :: B) = cJF B + 1 := by
    simp [cJF, List.countP_cons, ht]
  have hc2 : cJB (t :: B) = cJB B := by
    simp [cJB, List.countP_cons, ht]
  rw [cJF_append, cJB_append, hc1, hc2] at heq
  omega

/-! ## Matching lemmas -/

theorem isMatch_append (prog ts : List Token) (f b : Nat) (h : isMatch prog f b) :
    isMatch (prog ++ ts) f b := by
  obtain ⟨h1, h2, h3, h4, h5⟩ := h
  refine ⟨h1, by rw [List.length_append]; omega, ?_, ?_, ?_⟩
  · rw [kindAt_append_lt _ _ _ (lt_trans h1 h2)]
    exact h3
  · rw [kindAt_append_lt _ _ _ h2]
    exact h4
  · rw [slice_append_eq _ _ _ _ (by omega) h2.le]
    exact h5

theorem isMatch_restrict (prog : List Token) (t : Token) (f b : Nat)
    (h : isMatch (prog ++ [t]) f b) (hb : b < prog.length) : isMatch prog f b := by
  obtain ⟨h1, h2, h3, h4, h5⟩ := h
  refine ⟨h1, hb, ?_, ?_, ?_⟩
  · rw [kindAt_append_lt _ _ _ (lt_trans h1 hb)] at h3
    exact h3
  · rw [kindAt_append_lt _ _ _ hb] at h4
    exact h4
  · rw [slice_append_eq _ _ _ _ (by omega) hb.le] at h5
    exact h5

theorem isMatch_last_kind (prog : List Token) (t : Token) (f : Nat)
    (h : isMatch (prog ++ [t]) f prog.length) : t.value = .JumpBackward := by
  obtain ⟨_, _, _, h4, _⟩ := h
  rw [kindAt_append_len] at h4
  exact h4

theorem getLastD_mem : ∀ (a : Nat) (l : List Nat), (a :: l).getLastD 0 ∈ a :: l := by
  intro a l
  induction l generalizing a with
  | nil => simp [List.getLastD]
  | cons b l2 ih =>
    have h : (a :: b :: l2).getLastD 0 = (b :: l2).getLastD 0 := by
      simp [List.getLastD_cons]
    rw [h]
    exact List.mem_cons_of_mem _ (ih b)

/-- In a strictly decreasing stack the last element (the bottom) is the
minimum. -/
theorem bottom_min : ∀ (a : Nat) (l : List Nat),
    List.Pairwise (fun x y => y < x) (a :: l) →
    ∀ x ∈ a :: l, (a :: l).getLastD 0 ≤ x := by
  intro a l
  induction l generalizing a with
  | nil =>
    intro _ x hx
    simp at hx
    simp [hx, List.getLastD]
  | cons b l2 ih =>
    intro hp x hx
    rw [List.pairwise_cons] at hp
    have hba : b < a := hp.1 b (by simp)
    have hlast : (a :: b :: l2).getLastD 0 = (b :: l2).getLastD 0 := by
      simp [List.getLastD_cons]
    rcases List.mem_cons.mp hx with rfl | hx2
    · rw [hlast]
      have hb := ih b hp.2 b (by simp)
      omega
    · rw [hlast]
      exact ih b hp.2 x hx2

theorem drop_append_single (done : List Token) (t : Token) (i : Nat)
    (h : i ≤ done.length) : (done ++ [t]).drop i = done.drop i ++ [t] := by
  rw [List.drop_append_eq_append_drop, Nat.sub_eq_zero_of_le h, List.drop_zero]

theorem scanInv_nil : ScanInv [] [] [] := by
  constructor <;> simp [cJF, cJB, isMatch]

/-- When the scan meets a backward bracket, the only forward bracket the
just-completed segment can match is the top of the pending stack. -/
theorem forced_top (done : List Token) (s0 : Nat) (srest : List Nat)
    (table : List (Nat × Nat)) (inv : ScanInv done (s0 :: srest) table)
    (t : Token) (f : Nat) (hm : isMatch (done ++ [t]) f done.length) : f = s0 := by
  obtain ⟨hfb, _, hkf, _, hbal⟩ := hm
  have hflt : f < done.length := hfb
  have hkf2 : kindAt done f = .JumpForward := by
    rw [kindAt_append_lt _ _ _ hflt] at hkf
    exact hkf
  have hslice : ((done ++ [t]).drop (f + 1)).take (done.length - (f + 1)) =
      done.drop (f + 1) := by
    rw [slice_append_eq _ _ _ _ (by omega) le_rfl, take_len_sub_drop]
  rw [hslice, balanced_iff] at hbal
  obtain ⟨hbp, hbe⟩ := hbal
  have hs0 := inv.stack_lt s0 (List.mem_cons_self _ _)
  have hks0 := inv.stack_kind s0 (List.mem_cons_self _ _)
  have hnet0 := inv.stack_net 0 (by simp)
  have hpfx0 := inv.stack_pfx 0 (by simp)
  simp only [List.getD_cons_zero] at hnet0 hpfx0
  rcases lt_trichotomy f s0 with hlt | heq | hgt
  · exfalso
    have hdec := drop_decomp done (f + 1) s0 (by omega) hs0
    have hkind : done[s0].value = .JumpForward := by
      have hg : kindAt done s0 = done[s0].value := by
        unfold kindAt
        rw [List.getD_eq_getElem _ _ hs0]
      rw [hg] at hks0
      exact hks0
    apply decomp_contra ((done.drop (f + 1)).take (s0 - (f + 1)))
      (done.drop (s0 + 1)) done[s0] hkind
    · omega
    · rw [← hdec]
      exact hbp
    · rw [← hdec]
      exact hbe
  · exact heq
  · exfalso
    have hdec := drop_decomp done (s0 + 1) f (by omega) hflt
    have hkind : done[f].value = .JumpForward := by
      have hg : kindAt done f = done[f].value := by
        unfold kindAt
        rw [List.getD_eq_getElem _ _ hflt]
      rw [hg] at hkf2
      exact hkf2
    apply decomp_contra ((done.drop (s0 + 1)).take (f - (s0 + 1)))
      (done.drop (f + 1)) done[f] hkind
    · exact hbe
    · rw [← hdec]
      exact hpfx0
    · rw [← hdec]
      omega

theorem getD_mem_of_lt (l : List Nat) (j : Nat) (h : j < l.length) :
    l.getD j 0 ∈ l := by
  rw [List.getD_eq_getElem _ _ h]
  exact List.getElem_mem _

/-- Invariant preservation: a non-bracket token. -/
theorem scanInv_other (done : List Token) (stack : List Nat)
    (table : List (Nat × Nat)) (t : Token)
    (h1 : t.value ≠ .JumpForward) (h2 : t.value ≠ .JumpBackward)
    (inv : ScanInv done stack table) : ScanInv (done ++ [t]) stack table := by
  have hcf : cJF [t] = 0 := by
    rw [cJF_singleton, if_neg h1]
  have hcb : cJB [t] = 0 := by
    rw [cJB_singleton, if_neg h2]
  refine ⟨?_, ?_, ?_, ?_, ?_, ?_, ?_, ?_, ?_, ?_, ?_, ?_, ?_, ?_⟩
  · intro f hf
    have := inv.stack_lt f hf
    simp only [List.length_append, List.length_cons, List.length_nil]
    omega
  · intro f hf
    rw [kindAt_append_lt _ _ _ (inv.stack_lt f hf)]
    exact inv.stack_kind f hf
  · exact inv.stack_sorted
  · intro j hj
    have hflt := inv.stack_lt _ (getD_mem_of_lt _ _ hj)
    rw [drop_append_single _ _ _ (by omega), cJF_append, cJB_append, hcf, hcb]
    have := inv.stack_net j hj
    omega
  · intro j hj n
    have hflt := inv.stack_lt _ (getD_mem_of_lt _ _ hj)
    rw [drop_append_single _ _ _ (by omega)]
    refine pfx_append_single _ _ (inv.stack_pfx j hj) ?_ n
    rw [cJF_append, cJB_append, hcf, hcb]
    have := inv.stack_net j hj
    omega
  · intro p hp
    have := inv.tab_lt p hp
    simp only [List.length_append, List.length_cons, List.length_nil]
    omega
  · exact inv.tab_stack_disj
  · exact inv.tab_nodup
  · exact inv.tab_sym
  · intro p hp
    rcases inv.tab_match p hp with h | h
    · exact Or.inl (isMatch_append _ _ _ _ h)
    · exact Or.inr (isMatch_append _ _ _ _ h)
  · intro f b hm
    have hb : b < done.length + 1 := by
      have := hm.2.1
      simpa using this
    have hbc : b < done.length ∨ b = done.length := by omega
    rcases hbc with hblt | hbeq
    · exact inv.match_tab f b (isMatch_restrict _ _ _ _ hm hblt)
    · exfalso
      subst hbeq
      exact h2 (isMatch_last_kind _ _ _ hm)
  · rw [cJF_append, cJB_append, hcf, hcb]
    have := inv.net_total
    omega
  · intro j hj hk
    have hj2 : j < done.length ∨ j = done.length := by
      simp only [List.length_append, List.length_cons, List.length_nil] at hj
      omega
    rcases hj2 with hj2 | hj2
    · rw [kindAt_append_lt _ _ _ hj2] at hk
      exact inv.jf_cover j hj2 hk
    · exfalso
      rw [hj2, kindAt_append_len] at hk
      exact h1 hk
  · intro j hj hk
    have hj2 : j < done.length ∨ j = done.length := by
      simp only [List.length_append, List.length_cons, List.length_nil] at hj
      omega
    rcases hj2 with hj2 | hj2
    · rw [kindAt_append_lt _ _ _ hj2] at hk
      exact inv.jb_cover j hj2 hk
    · exfalso
      rw [hj2, kindAt_append_len] at hk
      exact h2 hk

/-- Invariant preservation: a forward bracket is pushed. -/
theorem scanInv_jf (done : List Token) (stack : List Nat)
    (table : List (Nat × Nat)) (t : Token) (ht : t.value = .JumpForward)
    (inv : ScanInv done stack table) :
    ScanInv (done ++ [t]) (done.length :: stack) table := by
  have h2 : t.value ≠ .JumpBackward := by
    rw [ht]
    decide
  have hcf : cJF [t] = 1 := by
    rw [cJF_singleton, if_pos ht]
  have hcb : cJB [t] = 0 := by
    rw [cJB_singleton, if_neg h2]
  have hlen : (done ++ [t]).length = done.length + 1 := by
    simp
  refine ⟨?_, ?_, ?_, ?_, ?_, ?_, ?_, ?_, ?_, ?_, ?_, ?_, ?_, ?_⟩
  · intro f hf
    rw [hlen]
    rcases List.mem_cons.mp hf with rfl | hf2
    · omega
    · have := inv.stack_lt f hf2
      omega
  · intro f hf
    rcases List.mem_cons.mp hf with rfl | hf2
    · rw [kindAt_append_len]
      exact ht
    · rw [kindAt_append_lt _ _ _ (inv.stack_lt f hf2)]
      exact inv.stack_kind f hf2
  · rw [List.pairwise_cons]
    exact ⟨fun x hx => inv.stack_lt x hx, inv.stack_sorted⟩
  · intro j hj
    match j with
    | 0 =>
      have hdrop : (done ++ [t]).drop (done.length + 1) = [] := by
        apply List.drop_eq_nil_of_le
        rw [hlen]
      simp only [List.getD_cons_zero, hdrop]
      simp [cJF, cJB]
    | j + 1 =>
      simp only [List.getD_cons_succ]
      have hj2 : j < stack.length := by
        simp at hj
        omega
      have hflt := inv.stack_lt _ (getD_mem_of_lt _ _ hj2)
      rw [drop_append_single _ _ _ (by omega), cJF_append, cJB_append, hcf, hcb]
      have := inv.stack_net j hj2
      omega
  · intro j hj n
    match j with
    | 0 =>
      have hdrop : (done ++ [t]).drop (done.length + 1) = [] := by
        apply List.drop_eq_nil_of_le
        rw [hlen]
      simp only [List.getD_cons_zero, hdrop]
      simp [cJF, cJB]
    | j + 1 =>
      simp only [List.getD_cons_succ]
      have hj2 : j < stack.length := by
        simp at hj
        omega
      have hflt := inv.stack_lt _ (getD_mem_of_lt _ _ hj2)
      rw [drop_append_single _ _ _ (by omega)]
      refine pfx_append_single _ _ (inv.stack_pfx j hj2) ?_ n
      rw [cJF_append, cJB_append, hcf, hcb]
      have := inv.stack_net j hj2
      omega
  · intro p hp
    have := inv.tab_lt p hp
    rw [hlen]
    omega
  · intro p hp
    intro hmem
    rcases List.mem_cons.mp hmem with h | h
    · have := (inv.tab_lt p hp).1
      omega
    · exact inv.tab_stack_disj p hp h
  · exact inv.tab_nodup
  · exact inv.tab_sym
  · intro p hp
    rcases inv.tab_match p hp with h | h
    · exact Or.inl (isMatch_append _ _ _ _ h)
    · exact Or.inr (isMatch_append _ _ _ _ h)
  · intro f b hm
    have hb : b < done.length + 1 := by
      have := hm.2.1
      simpa using this
    have hbc : b < done.length ∨ b = done.length := by omega
    rcases hbc with hblt | hbeq
    · exact inv.match_tab f b (isMatch_restrict _ _ _ _ hm hblt)
    · exfalso
      subst hbeq
      exact h2 (isMatch_last_kind _ _ _ hm)
  · rw [cJF_append, cJB_append, hcf, hcb]
    have := inv.net_total
    simp only [List.length_cons]
    omega
  · intro j hj hk
    rw [hlen] at hj
    have hj2 : j < done.length ∨ j = done.length := by omega
    rcases hj2 with hj2 | hj2
    · rw [kindAt_append_lt _ _ _ hj2] at hk
      rcases inv.jf_cover j hj2 hk with h | h
      · exact Or.inl (List.mem_cons_of_mem _ h)
      · exact Or.inr h
    · subst hj2
      exact Or.inl (List.mem_cons_self _ _)
  · intro j hj hk
    rw [hlen] at hj
    have hj2 : j < done.length ∨ j = done.length := by omega
    rcases hj2 with hj2 | hj2
    · rw [kindAt_append_lt _ _ _ hj2] at hk
      exact inv.jb_cover j hj2 hk
    · exfalso
      subst hj2
      rw [kindAt_append_len] at hk
      exact h2 hk

/-- Invariant preservation: a backward bracket pops the stack top and
records the pair in both directions. -/
theorem scanInv_jb (done : List Token) (s0 : Nat) (srest : List Nat)
    (table : List (Nat × Nat)) (t : Token) (ht : t.value = .JumpBackward)
    (inv : ScanInv done (s0 :: srest) table) :
    ScanInv (done ++ [t]) srest
      ((s0, done.length) :: (done.length, s0) :: table) := by
  have h1 : t.value ≠ .JumpForward := by
    rw [ht]
    decide
  have hcf : cJF [t] = 0 := by
    rw [cJF_singleton, if_neg h1]
  have hcb : cJB [t] = 1 := by
    rw [cJB_singleton, if_pos ht]
  have hlen : (done ++ [t]).length = done.length + 1 := by
    simp
  have hs0 : s0 < done.length := inv.stack_lt s0 (List.mem_cons_self _ _)
  have hsorted := inv.stack_sorted
  rw [List.pairwise_cons] at hsorted
  have hs0rest : s0 ∉ srest := by
    intro hmem
    have := hsorted.1 s0 hmem
    omega
  have hnet0 := inv.stack_net 0 (by simp)
  have hpfx0 := inv.stack_pfx 0 (by simp)
  simp only [List.getD_cons_zero] at hnet0 hpfx0
  have hmatch : isMatch (done ++ [t]) s0 done.length := by
    refine ⟨hs0, by rw [hlen]; omega, ?_, ?_, ?_⟩
    · rw [kindAt_append_lt _ _ _ hs0]
      exact inv.stack_kind s0 (List.mem_cons_self _ _)
    · rw [kindAt_append_len]
      exact ht
    · rw [slice_append_eq _ _ _ _ (by omega) le_rfl, take_len_sub_drop, balanced_iff]
      exact ⟨hpfx0, by omega⟩
  refine ⟨?_, ?_, ?_, ?_, ?_, ?_, ?_, ?_, ?_, ?_, ?_, ?_, ?_, ?_⟩
  · intro f hf
    have := inv.stack_lt f (List.mem_cons_of_mem _ hf)
    rw [hlen]
    omega
  · intro f hf
    rw [kindAt_append_lt _ _ _ (inv.stack_lt f (List.mem_cons_of_mem _ hf))]
    exact inv.stack_kind f (List.mem_cons_of_mem _ hf)
  · exact hsorted.2
  · intro j hj
    have hj2 : j + 1 < (s0 :: srest).length := by
      simp only [List.length_cons]
      omega
    have hget : srest.getD j 0 = (s0 :: srest).getD (j + 1) 0 := by
      simp [List.getD_cons_succ]
    rw [hget]
    have hflt := inv.stack_lt _ (getD_mem_of_lt _ _ hj2)
    rw [drop_append_single _ _ _ (by omega), cJF_append, cJB_append, hcf, hcb]
    have := inv.stack_net (j + 1) hj2
    omega
  · intro j hj n
    have hj2 : j + 1 < (s0 :: srest).length := by
      simp only [List.length_cons]
      omega
    have hget : srest.getD j 0 = (s0 :: srest).getD (j + 1) 0 := by
      simp [List.getD_cons_succ]
    rw [hget]
    have hflt := inv.stack_lt _ (getD_mem_of_lt _ _ hj2)
    rw [drop_append_single _ _ _ (by omega)]
    refine pfx_append_single _ _ (inv.stack_pfx (j + 1) hj2) ?_ n
    rw [cJF_append, cJB_append, hcf, hcb]
    have := inv.stack_net (j + 1) hj2
    omega
  · intro p hp
    rw [hlen]
    rcases List.mem_cons.mp hp with rfl | hp2
    · simp
      omega
    rcases List.mem_cons.mp hp2 with rfl | hp3
    · simp
      omega
    · have := inv.tab_lt p hp3
      omega
  · intro p hp
    rcases List.mem_cons.mp hp with rfl | hp2
    · exact hs0rest
    rcases List.mem_cons.mp hp2 with rfl | hp3
    · simp only
      intro hmem
      have := inv.stack_lt _ (List.mem_cons_of_mem _ hmem)
      omega
    · intro hmem
      exact inv.tab_stack_disj p hp3 (List.mem_cons_of_mem _ hmem)
  · simp only [List.map_cons]
    rw [List.nodup_cons, List.nodup_cons]
    refine ⟨?_, ?_, inv.tab_nodup⟩
    · intro hmem
      rcases List.mem_cons.mp hmem with h | h
      · omega
      · rcases List.mem_map.mp h with ⟨p, hp, hps⟩
        refine inv.tab_stack_disj p hp ?_
        rw [hps]
        exact List.mem_cons_self _ _
    · intro hmem
      rcases List.mem_map.mp hmem with ⟨p, hp, hps⟩
      have := (inv.tab_lt p hp).1
      omega
  · intro p hp
    rcases List.mem_cons.mp hp with rfl | hp2
    · simp only
      exact List.mem_cons_of_mem _ (List.mem_cons_self _ _)
    rcases List.mem_cons.mp hp2 with rfl | hp3
    · simp only
      exact List.mem_cons_self _ _
    · exact List.mem_cons_of_mem _ (List.mem_cons_of_mem _ (inv.tab_sym p hp3))
  · intro p hp
    rcases List.mem_cons.mp hp with rfl | hp2
    · exact Or.inl hmatch
    rcases List.mem_cons.mp hp2 with rfl | hp3
    · exact Or.inr hmatch
    · rcases inv.tab_match p hp3 with h | h
      · exact Or.inl (isMatch_append _ _ _ _ h)
      · exact Or.inr (isMatch_append _ _ _ _ h)
  · intro f b hm
    have hb : b < done.length + 1 := by
      have := hm.2.1
      simpa using this
    have hbc : b < done.length ∨ b = done.length := by omega
    rcases hbc with hblt | hbeq
    · exact List.mem_cons_of_mem _
        (List.mem_cons_of_mem _ (inv.match_tab f b (isMatch_restrict _ _ _ _ hm hblt)))
    · subst hbeq
      have hf : f = s0 := forced_top done s0 srest table inv t f hm
      subst hf
      exact List.mem_cons_self _ _
  · rw [cJF_append, cJB_append, hcf, hcb]
    have := inv.net_total
    simp only [List.length_cons] at this
    omega
  · intro j hj hk
    rw [hlen] at hj
    have hj2 : j < done.length ∨ j = done.length := by omega
    rcases hj2 with hj2 | hj2
    · rw [kindAt_append_lt _ _ _ hj2] at hk
      rcases inv.jf_cover j hj2 hk with h | h
      · rcases List.mem_cons.mp h with rfl | h2
        · refine Or.inr ?_
          simp
        · exact Or.inl h2
      · refine Or.inr ?_
        simp only [List.map_cons, List.mem_cons]
        exact Or.inr (Or.inr h)
    · exfalso
      subst hj2
      rw [kindAt_append_len] at hk
      exact h1 hk
  · intro j hj hk
    rw [hlen] at hj
    have hj2 : j < done.length ∨ j = done.length := by omega
    rcases hj2 with hj2 | hj2
    · rw [kindAt_append_lt _ _ _ hj2] at hk
      have h := inv.jb_cover j hj2 hk
      simp only [List.map_cons, List.mem_cons]
      rcases List.mem_map.mp h with ⟨p, hp, hps⟩
      exact Or.inr (Or.inr (List.mem_map.mpr ⟨p, hp, hps⟩))
    · subst hj2
      simp

/-- Whenever the bracket-resolution scan completes without an error, the
invariant transports from the consumed prefix to the whole program. -/
theorem scan_inv_of_success :
    ∀ (rest done : List Token) (stack : List Nat) (table table2 : List (Nat × Nat))
      (stack2 : List Nat),
      ScanInv done stack table →
      initScan rest done.length stack table = (table2, stack2, none) →
      ScanInv (done ++ rest) stack2 table2 := by
  intro rest
  induction rest with
  | nil =>
    intro done stack table table2 stack2 inv hscan
    simp only [initScan, Prod.mk.injEq] at hscan
    obtain ⟨h1, h2, _⟩ := hscan
    subst h1
    subst h2
    simpa using inv
  | cons t rest ih =>
    intro done stack table table2 stack2 inv hscan
    have hlen : (done ++ [t]).length = done.length + 1 := by
      simp
    have happ : (done ++ [t]) ++ rest = done ++ t :: rest := by
      rw [List.append_assoc, List.singleton_append]
    cases hv : t.value with
    | JumpForward =>
      simp only [initScan, hv] at hscan
      have h := ih (done ++ [t]) (done.length :: stack) table table2 stack2
        (scanInv_jf done stack table t hv inv) (by rw [hlen]; exact hscan)
      rwa [happ] at h
    | JumpBackward =>
      simp only [initScan, hv] at hscan
      cases hstack : stack with
      | nil =>
        rw [hstack] at hscan
        simp at hscan
      | cons s0 srest =>
        rw [hstack] at hscan
        simp only [tableInsert] at hscan
        rw [hstack] at inv
        have h := ih (done ++ [t]) srest ((s0, done.length) :: (done.length, s0) :: table)
          table2 stack2 (scanInv_jb done s0 srest table t hv inv)
          (by rw [hlen]; exact hscan)
        rwa [happ] at h
    | IncrementPointer =>
      simp only [initScan, hv] at hscan
      have h := ih (done ++ [t]) stack table table2 stack2
        (scanInv_other done stack table t (by rw [hv]; decide) (by rw [hv]; decide) inv)
        (by rw [hlen]; exact hscan)
      rwa [happ] at h
    | DecrementPointer =>
      simp only [initScan, hv] at hscan
      have h := ih (done ++ [t]) stack table table2 stack2
        (scanInv_other done stack table t (by rw [hv]; decide) (by rw [hv]; decide) inv)
        (by rw [hlen]; exact hscan)
      rwa [happ] at h
    | Increment =>
      simp only [initScan, hv] at hscan
      have h := ih (done ++ [t]) stack table table2 stack2
        (scanInv_other done stack table t (by rw [hv]; decide) (by rw [hv]; decide) inv)
        (by rw [hlen]; exact hscan)
      rwa [happ] at h
    | Decrement =>
      simp only [initScan, hv] at hscan
      have h := ih (done ++ [t]) stack table table2 stack2
        (scanInv_other done stack table t (by rw [hv]; decide) (by rw [hv]; decide) inv)
        (by rw [hlen]; exact hscan)
      rwa [happ] at h
    | Output =>
      simp only [initScan, hv] at hscan
      have h := ih (done ++ [t]) stack table table2 stack2
        (scanInv_other done stack table t (by rw [hv]; decide) (by rw [hv]; decide) inv)
        (by rw [hlen]; exact hscan)
      rwa [happ] at h
    | Input =>
      simp only [initScan, hv] at hscan
      have h := ih (done ++ [t]) stack table table2 stack2
        (scanInv_other done stack table t (by rw [hv]; decide) (by rw [hv]; decide) inv)
        (by rw [hlen]; exact hscan)
      rwa [happ] at h

/-- If no prefix of the remaining tokens closes more brackets than there
are pending opens, the scan completes without an error, and the final
stack length is determined by the bracket counts. -/
theorem scan_success_of_pfx :
    ∀ (rest : List Token) (i : Nat) (stack : List Nat) (table : List (Nat × Nat)),
      (∀ n, cJB (rest.take n) ≤ stack.length + cJF (rest.take n)) →
      ∃ table2 stack2, initScan rest i stack table = (table2, stack2, none) ∧
        stack2.length + cJB rest = stack.length + cJF rest := by
  intro rest
  induction rest with
  | nil =>
    intro i stack table _
    exact ⟨table, stack, rfl, by simp [cJF, cJB]⟩
  | cons t rest ih =>
    intro i stack table hp
    cases hv : t.value with
    | JumpForward =>
      have hp1 : ∀ n, cJB (rest.take n) ≤ (i :: stack).length + cJF (rest.take n) := by
        intro n
        have h := hp (n + 1)
        rw [List.take_succ_cons, cJB_cons, cJF_cons, hv] at h
        simp only [List.length_cons]
        simp at h
        omega
      obtain ⟨table2, stack2, hscan, hcount⟩ := ih (i + 1) (i :: stack) table hp1
      refine ⟨table2, stack2, ?_, ?_⟩
      · simp only [initScan, hv]
        exact hscan
      · rw [cJB_cons, cJF_cons, hv]
        simp only [List.length_cons] at hcount
        simp
        omega
    | JumpBackward =>
      have hvne : t.value ≠ .JumpForward := by
        rw [hv]
        decide
      have hne : 1 ≤ stack.length := by
        have h := hp 1
        rw [List.take_succ_cons, List.take_zero, cJB_cons, cJF_cons, hv] at h
        simp [cJF, cJB] at h
        omega
      cases hstack : stack with
      | nil =>
        rw [hstack] at hne
        simp at hne
      | cons s0 srest =>
        have hp1 : ∀ n, cJB (rest.take n) ≤ srest.length + cJF (rest.take n) := by
          intro n
          have h := hp (n + 1)
          rw [List.take_succ_cons, cJB_cons, cJF_cons, hv, hstack] at h
          simp only [List.length_cons] at h
          simp at h
          omega
        obtain ⟨table2, stack2, hscan, hcount⟩ := ih (i + 1) srest
          (tableInsert (tableInsert table i s0) s0 i) hp1
        refine ⟨table2, stack2, ?_, ?_⟩
        · simp only [initScan, hv]
          exact hscan
        · rw [cJB_cons, cJF_cons, hv]
          simp only [List.length_cons]
          simp
          omega
    | IncrementPointer =>
      have hp1 : ∀ n, cJB (rest.take n) ≤ stack.length + cJF (rest.take n) := by
        intro n
        have h := hp (n + 1)
        rw [List.take_succ_cons, cJB_cons, cJF_cons, hv] at h
        simpa using h
      obtain ⟨table2, stack2, hscan, hcount⟩ := ih (i + 1) stack table hp1
      refine ⟨table2, stack2, by simp only [initScan, hv]; exact hscan, ?_⟩
      rw [cJB_cons, cJF_cons, hv]
      simp
      omega
    | DecrementPointer =>
      have hp1 : ∀ n, cJB (rest.take n) ≤ stack.length + cJF (rest.take n) := by
        intro n
        have h := hp (n + 1)
        rw [List.take_succ_cons, cJB_cons, cJF_cons, hv] at h
        simpa using h
      obtain ⟨table2, stack2, hscan, hcount⟩ := ih (i + 1) stack table hp1
      refine ⟨table2, stack2, by simp only [initScan, hv]; exact hscan, ?_⟩
      rw [cJB_cons, cJF_cons, hv]
      simp
      omega
    | Increment =>
      have hp1 : ∀ n, cJB (rest.take n) ≤ stack.length + cJF (rest.take n) := by
        intro n
        have h := hp (n + 1)
        rw [List.take_succ_cons, cJB_cons, cJF_cons, hv] at h
        simpa using h
      obtain ⟨table2, stack2, hscan, hcount⟩ := ih (i + 1) stack table hp1
      refine ⟨table2, stack2, by simp only [initScan, hv]; exact hscan, ?_⟩
      rw [cJB_cons, cJF_cons, hv]
      simp
      omega
    | Decrement =>
      have hp1 : ∀ n, cJB (rest.take n) ≤ stack.length + cJF (rest.take n) := by
        intro n
        have h := hp (n + 1)
        rw [List.take_succ_cons, cJB_cons, cJF_cons, hv] at h
        simpa using h
      obtain ⟨table2, stack2, hscan, hcount⟩ := ih (i + 1) stack table hp1
      refine ⟨table2, stack2, by simp only [initScan, hv]; exact hscan, ?_⟩
      rw [cJB_cons, cJF_cons, hv]
      simp
      omega
    | Output =>
      have hp1 : ∀ n, cJB (rest.take n) ≤ stack.length + cJF (rest.take n) := by
        intro n
        have h := hp (n + 1)
        rw [List.take_succ_cons, cJB_cons, cJF_cons, hv] at h
        simpa using h
      obtain ⟨table2, stack2, hscan, hcount⟩ := ih (i + 1) stack table hp1
      refine ⟨table2, stack2, by simp only [initScan, hv]; exact hscan, ?_⟩
      rw [cJB_cons, cJF_cons, hv]
      simp
      omega
    | Input =>
      have hp1 : ∀ n, cJB (rest.take n) ≤ stack.length + cJF (rest.take n) := by
        intro n
        have h := hp (n + 1)
        rw [List.take_succ_cons, cJB_cons, cJF_cons, hv] at h
        simpa using h
      obtain ⟨table2, stack2, hscan, hcount⟩ := ih (i + 1) stack table hp1
      refine ⟨table2, stack2, by simp only [initScan, hv]; exact hscan, ?_⟩
      rw [cJB_cons, cJF_cons, hv]
      simp
      omega

/-- The scan only ever conses fresh entries onto the incoming table: its
result on any table is its result on the empty table, appended to the
incoming one, with the same final stack and error. -/
theorem initScan_frame :
    ∀ (rest : List Token) (i : Nat) (stack : List Nat) (table : List (Nat × Nat)),
      initScan rest i stack table =
        ((initScan rest i stack []).1 ++ table,
         (initScan rest i stack []).2.1,
         (initScan rest i stack []).2.2) := by
  intro rest
  induction rest with
  | nil =>
    intro i stack table
    simp [initScan]
  | cons t rest ih =>
    intro i stack table
    cases hv : t.value with
    | JumpForward =>
      simp only [initScan, hv]
      exact ih (i + 1) (i :: stack) table
    | JumpBackward =>
      cases stack with
      | nil =>
        simp [initScan, hv]
      | cons s0 srest =>
        simp only [initScan, hv, tableInsert]
        rw [ih (i + 1) srest ((s0, i) :: (i, s0) :: table),
            ih (i + 1) srest ((s0, i) :: (i, s0) :: [])]
        simp [List.append_assoc]
    | IncrementPointer =>
      simp only [initScan, hv]
      exact ih (i + 1) stack table
    | DecrementPointer =>
      simp only [initScan, hv]
      exact ih (i + 1) stack table
    | Increment =>
      simp only [initScan, hv]
      exact ih (i + 1) stack table
    | Decrement =>
      simp only [initScan, hv]
      exact ih (i + 1) stack table
    | Output =>
      simp only [initScan, hv]
      exact ih (i + 1) stack table
    | Input =>
      simp only [initScan, hv]
      exact ih (i + 1) stack table

theorem tableGet_append_self (t : List (Nat × Nat)) (k : Nat) :
    tableGet (t ++ t) k = tableGet t k := by
  unfold tableGet
  rw [List.find?_append]
  cases h : t.find? (fun e => e.1 == k) with
  | none => simp [h]
  | some p => simp [h]

/-- A balanced program scans successfully with an empty final stack, and
the invariant holds for the resulting table. -/
theorem scan_of_balanced (prog : List Token) (h : balanced prog) :
    ∃ table, initScan prog 0 [] [] = (table, [], none) ∧ ScanInv prog [] table := by
  have hiff := (balanced_iff prog).mp h
  obtain ⟨hp, he⟩ := hiff
  have hp0 : ∀ n, cJB (prog.take n) ≤ ([] : List Nat).length + cJF (prog.take n) := by
    intro n
    simpa using hp n
  obtain ⟨table2, stack2, hscan, hcount⟩ := scan_success_of_pfx prog 0 [] [] hp0
  have hlen : stack2.length = 0 := by
    simp at hcount
    omega
  have hnil : stack2 = [] := List.length_eq_zero.mp hlen
  subst hnil
  refine ⟨table2, hscan, ?_⟩
  have hinv := scan_inv_of_success prog [] [] [] table2 [] scanInv_nil hscan
  simpa using hinv

/-! ## Unfolding `init` and `eval` on a fresh interpreter -/

theorem init_new_err (prog : List Token) (table : List (Nat × Nat)) (stack : List Nat)
    (hscan : initScan prog 0 [] [] = (table, stack, none)) (hne : stack.isEmpty = false) :
    init { IState.new with program := prog } =
      ({ IState.new with program := prog, jumpTable := table },
       some ⟨.UnmatchedJumpForwardError,
             ((prog.getD (stack.getLastD 0) dummyToken).location)⟩) := by
  unfold init
  simp only [IState.new]
  rw [hscan]
  simp [hne]

theorem eval_new_of_scan_ok (prog : List Token) (table : List (Nat × Nat))
    (hscan : initScan prog 0 [] [] = (table, [], none)) (fuel : Nat) :
    eval IState.new prog fuel =
      evalLoop fuel { IState.new with program := prog, jumpTable := table } := by
  unfold eval init
  simp only [IState.new]
  rw [hscan]
  simp

theorem eval_def (s : IState) (prog : List Token) (fuel : Nat) :
    eval s prog fuel =
      match init { s with program := prog } with
      | (s2, some e) => .err s2 e
      | (s2, none) => evalLoop fuel s2 := rfl

theorem eval_new_of_scan_nonempty (prog : List Token) (table : List (Nat × Nat))
    (stack : List Nat) (hscan : initScan prog 0 [] [] = (table, stack, none))
    (hne : stack.isEmpty = false) (fuel : Nat) :
    eval IState.new prog fuel =
      .err { IState.new with program := prog, jumpTable := table }
        ⟨.UnmatchedJumpForwardError,
         ((prog.getD (stack.getLastD 0) dummyToken).location)⟩ := by
  unfold eval init
  simp only [IState.new]
  rw [hscan]
  simp [hne]

/-! ## Steps do not touch the program or the jump table -/

theorem stepCommand_ok_inv (s : IState) (cmd : Token) (s2 : IState)
    (h : stepCommand s cmd = .ok s2) :
    s2.program = s.program ∧ s2.jumpTable = s.jumpTable := by
  cases hv : cmd.value <;>
    simp only [stepCommand, hv, evalIncrementPointer, evalDecrementPointer, evalIncrement,
      evalDecrement, evalOutput, evalInput, evalJumpForward, evalJumpBackward] at h <;>
    (try split at h) <;>
    (try split at h) <;>
    (try split at h) <;>
    (first
      | simp only [reduceCtorEq] at h
      | (simp only [StepResult.ok.injEq] at h
         subst h
         simp))

theorem stepCommand_no_jumpLookup (s : IState) (hcov : covered s)
    (hlt : s.programCursor < s.program.length) (s2 : IState) :
    stepCommand s (s.program.getD s.programCursor dummyToken) ≠ .panic s2 .jumpLookup := by
  intro h
  set cmd := s.program.getD s.programCursor dummyToken with hcmd
  have hkind : kindAt s.program s.programCursor = cmd.value := rfl
  cases hv : cmd.value <;>
    simp only [stepCommand, hv, evalIncrementPointer, evalDecrementPointer, evalIncrement,
      evalDecrement, evalOutput, evalInput, evalJumpForward, evalJumpBackward] at h
  case IncrementPointer => simp at h
  case DecrementPointer =>
    split at h <;> simp at h
  case Increment =>
    split at h <;> simp at h
  case Decrement =>
    split at h <;> simp at h
  case Output =>
    split at h <;> simp at h
  case Input =>
    split at h
    · simp only [StepResult.panic.injEq] at h
      exact absurd h.2 (by decide)
    · split at h <;> simp only [StepResult.panic.injEq, reduceCtorEq] at h
      exact absurd h.2 (by decide)
  case JumpForward =>
    have hget : tableGet s.jumpTable s.programCursor ≠ none :=
      hcov s.programCursor hlt (Or.inl (by rw [hkind, hv]))
    split at h
    · split at h
      · simp at h
      · split at h
        · simp at h
        · exact hget (by assumption)
    · simp only [StepResult.panic.injEq] at h
      exact absurd h.2 (by decide)
  case JumpBackward =>
    have hget : tableGet s.jumpTable s.programCursor ≠ none :=
      hcov s.programCursor hlt (Or.inr (by rw [hkind, hv]))
    split at h
    · split at h
      · simp at h
      · split at h
        · simp at h
        · exact hget (by assumption)
    · simp only [StepResult.panic.injEq] at h
      exact absurd h.2 (by decide)

theorem evalLoop_no_jumpLookup :
    ∀ (fuel : Nat) (s : IState), covered s →
      ∀ s2, evalLoop fuel s ≠ .panic s2 .jumpLookup := by
  intro fuel
  induction fuel with
  | zero =>
    intro s _ s2
    simp [evalLoop]
  | succ fuel ih =>
    intro s hcov s2
    simp only [evalLoop]
    by_cases hc : s.programCursor < s.program.length
    · rw [if_pos hc]
      cases hstep : stepCommand s (s.program.getD s.programCursor dummyToken) with
      | ok s3 =>
        have hpt := stepCommand_ok_inv _ _ _ hstep
        have hcov2 : covered s3 := by
          unfold covered
          rw [hpt.1, hpt.2]
          exact hcov
        exact ih s3 hcov2 s2
      | err s3 e => simp
      | panic s3 k =>
        intro hcontra
        simp only [EvalResult.panic.injEq] at hcontra
        exact stepCommand_no_jumpLookup s hcov hc s2
          (by rw [hstep, hcontra.1, hcontra.2])
    · rw [if_neg hc]
      simp

/-! ## Fuel monotonicity of a successful run -/

theorem evalLoop_mono :
    ∀ (f1 : Nat) (s s2 : IState) (f2 : Nat), f1 ≤ f2 →
      evalLoop f1 s = .ok s2 → evalLoop f2 s = .ok s2 := by
  intro f1
  induction f1 with
  | zero =>
    intro s s2 f2 _ h
    simp [evalLoop] at h
  | succ f1 ih =>
    intro s s2 f2 hle h
    obtain ⟨f3, rfl⟩ : ∃ f3, f2 = f3 + 1 := ⟨f2 - 1, by omega⟩
    simp only [evalLoop] at h ⊢
    by_cases hc : s.programCursor < s.program.length
    · rw [if_pos hc] at h ⊢
      cases hstep : stepCommand s (s.program.getD s.programCursor dummyToken) with
      | ok s3 =>
        rw [hstep] at h
        exact ih s3 s2 f3 (by omega) h
      | err s3 e =>
        rw [hstep] at h
        simp at h
      | panic s3 k =>
        rw [hstep] at h
        simp at h
    · rw [if_neg hc] at h ⊢
      exact h

theorem eval_ok_mono (s : IState) (prog : List Token) (f1 f2 : Nat) (s2 : IState)
    (hle : f1 ≤ f2) (h : eval s prog f1 = .ok s2) : eval s prog f2 = .ok s2 := by
  rw [eval_def] at h ⊢
  rcases hinit : init { s with program := prog } with ⟨s3, e?⟩
  rw [hinit] at h
  cases e? with
  | some e => simp at h
  | none => exact evalLoop_mono f1 s3 s2 f2 hle h

/-! ## Lexer characterization -/

theorem tokenOfByte_map_value (b line col : Nat) :
    (tokenOfByte b line col).map (fun t => t.value) = byteToKind b := by
  unfold tokenOfByte byteToKind
  split_ifs <;> rfl

theorem lexBytes_map_value :
    ∀ (bs : List Nat) (line col : Nat),
      (lexBytes bs line col).map (fun t => t.value) = bs.filterMap byteToKind := by
  intro bs
  induction bs with
  | nil =>
    intro line col
    rfl
  | cons b rest ih =>
    intro line col
    by_cases h10 : b = 10
    · subst h10
      simp only [lexBytes, if_pos rfl]
      rw [List.filterMap_cons]
      norm_num [byteToKind]
      exact ih _ _
    · simp only [lexBytes, if_neg h10]
      cases htok : tokenOfByte b line col with
      | some t =>
        have hbk : byteToKind b = some t.value := by
          rw [← tokenOfByte_map_value b line col, htok]
          rfl
        simp only [List.map_cons]
        rw [ih, List.filterMap_cons, hbk]
      | none =>
        have hbk : byteToKind b = none := by
          rw [← tokenOfByte_map_value b line col, htok]
          rfl
        rw [ih, List.filterMap_cons, hbk]

/-! ## The claims -/

/-- C1: the claim says an unmatched backward bracket fails with
`UnmatchedJumpBackwardError` at that token's location.  The code disagrees
on the error kind: on the program `]` it fails during bracket resolution at
the backward bracket's location `(1,1)`, but with kind
`UnmatchedJumpForwardError` (interpreter.rs line 112); the declared variant
`UnmatchedJumpBackwardError` is never constructed by this interpreter.
This theorem evaluates `eval` at the failing input and exhibits the kind
the code actually produces. -/
theorem C1_unmatched_backward_kind_bug :
    eval IState.new (lex "]") 10 =
      .err { IState.new with program := lex "]" }
        ⟨.UnmatchedJumpForwardError, ⟨1, 1⟩⟩ ∧
    (InterpreterErrorKind.UnmatchedJumpForwardError ≠
      InterpreterErrorKind.UnmatchedJumpBackwardError) := by
  constructor
  · decide
  · decide

/-- C2: the claim says each `eval` call resets the tape to `[0]` and the
program counter to `0` before running.  The code's `init` resets only the
tape: after a first `eval` of the program `+` (which leaves the cursor at
1), a second `eval` of the same program on the same interpreter starts with
the stale cursor 1 ≥ length, so its loop never runs and the tape stays
`[0]` instead of becoming `[1]`. -/
theorem C2_cursor_not_reset_bug :
    eval IState.new progPlus 10 =
      .ok { IState.new with program := progPlus, programCursor := 1, cells := [1] } ∧
    eval { IState.new with program := progPlus, programCursor := 1, cells := [1] }
        progPlus 10 =
      .ok { IState.new with program := progPlus, programCursor := 1, cells := [0] } ∧
    ([0] : List Nat) ≠ [1] := by
  refine ⟨by decide, by decide, by decide⟩

/-- C6: running a fresh interpreter on the tokens lexed from `++[>++<-]`
terminates successfully (any fuel ≥ 100 suffices; the run takes 16 steps)
with tape `[0, 4]` and pointer `0`. -/
theorem C6_double_loop_example (fuel : Nat) (h : 100 ≤ fuel) :
    ∃ s, eval IState.new (lex "++[>++<-]") fuel = .ok s ∧
      s.cells = [0, 4] ∧ s.pointer = 0 := by
  refine ⟨{ IState.new with
              program := lex "++[>++<-]"
              programCursor := 9
              cells := [0, 4]
              jumpTable := [(2, 8), (8, 2)] }, ?_, rfl, rfl⟩
  exact eval_ok_mono IState.new _ 100 fuel _ h (by decide)

/-- Witness for C6 at fuel 100. -/
theorem C6_double_loop_example_witness :
    100 ≤ 100 ∧
    ∃ s, eval IState.new (lex "++[>++<-]") 100 = .ok s ∧
      s.cells = [0, 4] ∧ s.pointer = 0 :=
  ⟨le_refl 100, C6_double_loop_example 100 (le_refl 100)⟩

/-- C9: lexing is total and order-preserving: the emitted instruction kinds
are exactly the recognized bytes of the input in order (every unrecognized
byte is dropped), and lexing `"+[.+]\n>,-.<"` yields the ten expected
tokens with their line/column locations. -/
theorem C9_lex_pure_total :
    (∀ (bs : List Nat) (line col : Nat),
      (lexBytes bs line col).map (fun t => t.value) = bs.filterMap byteToKind) ∧
    lex "+[.+]\n>,-.<" =
      [⟨.Increment, ⟨1, 1⟩⟩, ⟨.JumpForward, ⟨1, 2⟩⟩, ⟨.Output, ⟨1, 3⟩⟩,
       ⟨.Increment, ⟨1, 4⟩⟩, ⟨.JumpBackward, ⟨1, 5⟩⟩,
       ⟨.IncrementPointer, ⟨2, 1⟩⟩, ⟨.Input, ⟨2, 2⟩⟩, ⟨.Decrement, ⟨2, 3⟩⟩,
       ⟨.Output, ⟨2, 4⟩⟩, ⟨.DecrementPointer, ⟨2, 5⟩⟩] := by
  constructor
  · exact lexBytes_map_value
  · decide

/-- C3: on a balanced token sequence the bracket-resolution scan succeeds
(no error, empty final stack), the resulting jump table is a perfect
involution over the matched bracket positions (`table[f] = b` and
`table[b] = f` for every matched pair, and every entry of the table is one
orientation of a matched pair), and building the table a second time over
the same sequence — as the code would, inserting into the table already
built — leaves every lookup unchanged. -/
theorem C3_involution (prog : List Token) (h : balanced prog) :
    ∃ table,
      initScan prog 0 [] [] = (table, [], none) ∧
      (∀ f b, isMatch prog f b →
        tableGet table f = some b ∧ tableGet table b = some f) ∧
      (∀ k v, tableGet table k = some v → isMatch prog k v ∨ isMatch prog v k) ∧
      initScan prog 0 [] table = (table ++ table, [], none) ∧
      (∀ k, tableGet (table ++ table) k = tableGet table k) := by
  obtain ⟨table, hscan, inv⟩ := scan_of_balanced prog h
  refine ⟨table, hscan, ?_, ?_, ?_, ?_⟩
  · intro f b hm
    have hmem := inv.match_tab f b hm
    have hsym := inv.tab_sym (f, b) hmem
    exact ⟨tableGet_of_mem _ _ _ hmem inv.tab_nodup,
           tableGet_of_mem _ _ _ hsym inv.tab_nodup⟩
  · intro k v hk
    exact inv.tab_match (k, v) (mem_of_tableGet _ _ _ hk)
  · rw [initScan_frame prog 0 [] table, hscan]
  · intro k
    exact tableGet_append_self table k

/-- Witness for C3 on the balanced program `[]`. -/
theorem C3_involution_witness :
    balanced (lex "[]") ∧
    ∃ table,
      initScan (lex "[]") 0 [] [] = (table, [], none) ∧
      (∀ f b, isMatch (lex "[]") f b →
        tableGet table f = some b ∧ tableGet table b = some f) ∧
      (∀ k v, tableGet table k = some v →
        isMatch (lex "[]") k v ∨ isMatch (lex "[]") v k) ∧
      initScan (lex "[]") 0 [] table = (table ++ table, [], none) ∧
      (∀ k, tableGet (table ++ table) k = tableGet table k) :=
  ⟨by decide, C3_involution (lex "[]") (by decide)⟩

/-- C10: whenever bracket resolution succeeds, every index holding a
bracket token is a key of the produced jump table, and consequently a run
of that program on a fresh interpreter can never reach the `.unwrap()`
panic of the jump-table lookups in `eval_jump_forward` /
`eval_jump_backward`, whatever the fuel. -/
theorem C10_lookup_never_panics (prog : List Token) (table : List (Nat × Nat))
    (fuel : Nat) (hscan : initScan prog 0 [] [] = (table, [], none)) :
    (∀ j, j < prog.length →
      (kindAt prog j = .JumpForward ∨ kindAt prog j = .JumpBackward) →
      tableGet table j ≠ none) ∧
    (∀ s2, eval IState.new prog fuel ≠ .panic s2 .jumpLookup) := by
  have hinv := scan_inv_of_success prog [] [] [] table [] scanInv_nil hscan
  rw [List.nil_append] at hinv
  have hcover : ∀ j, j < prog.length →
      (kindAt prog j = .JumpForward ∨ kindAt prog j = .JumpBackward) →
      tableGet table j ≠ none := by
    intro j hj hk
    rcases hk with hk | hk
    · rcases hinv.jf_cover j hj hk with hmem | hmem
      · simp at hmem
      · exact tableGet_isSome_of_mem_keys _ _ hmem
    · exact tableGet_isSome_of_mem_keys _ _ (hinv.jb_cover j hj hk)
  refine ⟨hcover, ?_⟩
  intro s2
  rw [eval_new_of_scan_ok prog table hscan fuel]
  apply evalLoop_no_jumpLookup
  intro j hj hk
  exact hcover j hj hk

/-- C4: if the scan completes (no unmatched `]`) but forward brackets
remain on the stack, `eval` fails with `UnmatchedJumpForwardError` located
at the earliest unmatched forward bracket (the least index holding a `[`
with no jump-table entry), and no instruction is executed: the returned
state still has pointer 0, program counter 0, tape `[0]` and no output. -/
theorem C4_unmatched_forward_no_execution (prog : List Token)
    (table : List (Nat × Nat)) (stack : List Nat) (fuel : Nat)
    (hscan : initScan prog 0 [] [] = (table, stack, none)) (hne : stack ≠ []) :
    ∃ s2 e j,
      eval IState.new prog fuel = .err s2 e ∧
      e.value = .UnmatchedJumpForwardError ∧
      kindAt prog j = .JumpForward ∧
      tableGet table j = none ∧
      (∀ i, i < j → ¬(kindAt prog i = .JumpForward ∧ tableGet table i = none)) ∧
      e.location = (prog.getD j dummyToken).location ∧
      s2.pointer = 0 ∧ s2.programCursor = 0 ∧ s2.cells = [0] ∧ s2.output = [] := by
  obtain ⟨s0, srest, rfl⟩ : ∃ s0 srest, stack = s0 :: srest := by
    cases stack with
    | nil => exact absurd rfl hne
    | cons a l => exact ⟨a, l, rfl⟩
  have hinv := scan_inv_of_success prog [] [] [] table (s0 :: srest) scanInv_nil hscan
  rw [List.nil_append] at hinv
  have hjmem : (s0 :: srest).getLastD 0 ∈ s0 :: srest := getLastD_mem s0 srest
  have hjlt : (s0 :: srest).getLastD 0 < prog.length := hinv.stack_lt _ hjmem
  have hjkind : kindAt prog ((s0 :: srest).getLastD 0) = .JumpForward :=
    hinv.stack_kind _ hjmem
  have hjnone : tableGet table ((s0 :: srest).getLastD 0) = none := by
    rw [tableGet_eq_none_iff]
    intro hkey
    rcases List.mem_map.mp hkey with ⟨p, hp, hps⟩
    exact hinv.tab_stack_disj p hp (hps ▸ hjmem)
  have hmin : ∀ i, i < (s0 :: srest).getLastD 0 →
      ¬(kindAt prog i = .JumpForward ∧ tableGet table i = none) := by
    rintro i hij ⟨hik, hinone⟩
    have hilt : i < prog.length := lt_trans hij hjlt
    rcases hinv.jf_cover i hilt hik with hmem | hmem
    · have hle := bottom_min s0 srest hinv.stack_sorted i hmem
      omega
    · exact (tableGet_eq_none_iff table i).mp hinone hmem
  exact ⟨_, _, (s0 :: srest).getLastD 0,
    eval_new_of_scan_nonempty prog table (s0 :: srest) hscan (by simp) fuel,
    rfl, hjkind, hjnone, hmin, rfl, rfl, rfl, rfl, rfl⟩

/-- Witness for C4 on the spec's example `++>+++>+++[` (its unmatched `[`
is token 10, at line 1 column 11). -/
theorem C4_unmatched_forward_no_execution_witness :
    initScan (lex "++>+++>+++[") 0 [] [] = ([], [10], none) ∧
    ∃ s2 e j,
      eval IState.new (lex "++>+++>+++[") 7 = .err s2 e ∧
      e.value = .UnmatchedJumpForwardError ∧
      kindAt (lex "++>+++>+++[") j = .JumpForward ∧
      tableGet [] j = none ∧
      (∀ i, i < j →
        ¬(kindAt (lex "++>+++>+++[") i = .JumpForward ∧ tableGet [] i = none)) ∧
      e.location = ((lex "++>+++>+++[").getD j dummyToken).location ∧
      s2.pointer = 0 ∧ s2.programCursor = 0 ∧ s2.cells = [0] ∧ s2.output = [] :=
  ⟨by decide,
   C4_unmatched_forward_no_execution (lex "++>+++>+++[") [] [10] 7 (by decide)
     (by decide)⟩

/-- C5: dispatching a bracket of a well-formed program (table built by a
successful scan, matched pair `(f, b)`, pointer in range): a `[` at `f`
falls through to `f + 1` on a non-zero cell and jumps to the matching `]`
position `b` on a zero cell; a `]` at `b` falls through on a zero cell and
jumps back to the matching `[` position `f` on a non-zero cell.  In every
case only the program counter changes (the `.ok { s with ... }` form keeps
pointer and tape untouched). -/
theorem C5_jump_semantics (s : IState) (f b : Nat)
    (hscan : initScan s.program 0 [] [] = (s.jumpTable, [], none))
    (hm : isMatch s.program f b) (hp : s.pointer < s.cells.length) :
    (s.programCursor = f →
      (s.cells.getD s.pointer 0 ≠ 0 →
        stepCommand s (s.program.getD s.programCursor dummyToken) =
          .ok { s with programCursor := s.programCursor + 1 }) ∧
      (s.cells.getD s.pointer 0 = 0 →
        stepCommand s (s.program.getD s.programCursor dummyToken) =
          .ok { s with programCursor := b })) ∧
    (s.programCursor = b →
      (s.cells.getD s.pointer 0 = 0 →
        stepCommand s (s.program.getD s.programCursor dummyToken) =
          .ok { s with programCursor := s.programCursor + 1 }) ∧
      (s.cells.getD s.pointer 0 ≠ 0 →
        stepCommand s (s.program.getD s.programCursor dummyToken) =
          .ok { s with programCursor := f })) := by
  have hinv := scan_inv_of_success s.program [] [] [] s.jumpTable [] scanInv_nil hscan
  rw [List.nil_append] at hinv
  have hmem := hinv.match_tab f b hm
  have hgf : tableGet s.jumpTable f = some b :=
    tableGet_of_mem _ _ _ hmem hinv.tab_nodup
  have hgb : tableGet s.jumpTable b = some f :=
    tableGet_of_mem _ _ _ (hinv.tab_sym _ hmem) hinv.tab_nodup
  obtain ⟨hfb, hblt, hkf, hkb, _⟩ := hm
  constructor
  · intro hcur
    have hkind : (s.program.getD s.programCursor dummyToken).value = .JumpForward := by
      rw [hcur]
      exact hkf
    have hstep : stepCommand s (s.program.getD s.programCursor dummyToken) =
        evalJumpForward s (s.program.getD s.programCursor dummyToken) := by
      unfold stepCommand
      rw [hkind]
    constructor
    · intro hcell
      rw [hstep]
      unfold evalJumpForward
      rw [if_pos hp, if_pos hcell]
    · intro hcell
      rw [hstep]
      unfold evalJumpForward
      rw [if_pos hp, if_neg (fun hh => hh hcell), hcur, hgf]
  · intro hcur
    have hkind : (s.program.getD s.programCursor dummyToken).value = .JumpBackward := by
      rw [hcur]
      exact hkb
    have hstep : stepCommand s (s.program.getD s.programCursor dummyToken) =
        evalJumpBackward s (s.program.getD s.programCursor dummyToken) := by
      unfold stepCommand
      rw [hkind]
    constructor
    · intro hcell
      rw [hstep]
      unfold evalJumpBackward
      rw [if_pos hp, if_pos hcell]
    · intro hcell
      rw [hstep]
      unfold evalJumpBackward
      rw [if_pos hp, if_neg hcell, hcur, hgb]

/-- Witness for C5 on the program `[]` with the matched pair `(0, 1)`. -/
theorem C5_jump_semantics_witness :
    (initScan c5State.program 0 [] [] = (c5State.jumpTable, [], none) ∧
     isMatch c5State.program 0 1 ∧ c5State.pointer < c5State.cells.length) ∧
    ((c5State.programCursor = 0 →
      (c5State.cells.getD c5State.pointer 0 ≠ 0 →
        stepCommand c5State (c5State.program.getD c5State.programCursor dummyToken) =
          .ok { c5State with programCursor := c5State.programCursor + 1 }) ∧
      (c5State.cells.getD c5State.pointer 0 = 0 →
        stepCommand c5State (c5State.program.getD c5State.programCursor dummyToken) =
          .ok { c5State with programCursor := 1 })) ∧
    (c5State.programCursor = 1 →
      (c5State.cells.getD c5State.pointer 0 = 0 →
        stepCommand c5State (c5State.program.getD c5State.programCursor dummyToken) =
          .ok { c5State with programCursor := c5State.programCursor + 1 }) ∧
      (c5State.cells.getD c5State.pointer 0 ≠ 0 →
        stepCommand c5State (c5State.program.getD c5State.programCursor dummyToken) =
          .ok { c5State with programCursor := 0 }))) :=
  ⟨⟨by decide, by decide, by decide⟩,
   C5_jump_semantics c5State 0 1 (by decide) (by decide) (by decide)⟩

/-- C7: `MovePointerBackward` fails — with `PointerError` at the command's
location, leaving the whole state unchanged — exactly when the pointer is
0; `MovePointerForward` never fails, increments the pointer, and (from any
state with the pointer in range, as every reachable state has) appends
exactly one zero cell precisely when the new pointer index equals the
current tape length. -/
theorem C7_pointer_semantics (s : IState) (cmd : Token)
    (hp : s.pointer < s.cells.length) :
    ((∃ e, evalDecrementPointer s cmd = .err s e ∧ e.value = .PointerError ∧
        e.location = cmd.location) ↔ s.pointer = 0) ∧
    (∀ s2 e, evalDecrementPointer s cmd = .err s2 e → s2 = s) ∧
    (∃ s2, evalIncrementPointer s cmd = .ok s2 ∧
      s2.pointer = s.pointer + 1 ∧
      s2.programCursor = s.programCursor + 1 ∧
      (s.pointer + 1 = s.cells.length → s2.cells = s.cells ++ [0]) ∧
      (s.pointer + 1 ≠ s.cells.length → s2.cells = s.cells)) := by
  refine ⟨?_, ?_, ?_⟩
  · constructor
    · rintro ⟨e, he, _, _⟩
      by_contra hne
      unfold evalDecrementPointer at he
      rw [if_neg hne] at he
      simp at he
    · intro h0
      refine ⟨⟨.PointerError, cmd.location⟩, ?_, rfl, rfl⟩
      unfold evalDecrementPointer
      rw [if_pos h0]
  · intro s2 e he
    unfold evalDecrementPointer at he
    split at he
    · simp only [StepResult.err.injEq] at he
      exact he.1.symm
    · simp at he
  · refine ⟨_, rfl, rfl, rfl, ?_, ?_⟩
    · intro h
      show (if s.cells.length ≤ s.pointer + 1 then s.cells ++ [0] else s.cells) =
        s.cells ++ [0]
      rw [if_pos (by omega)]
    · intro h
      show (if s.cells.length ≤ s.pointer + 1 then s.cells ++ [0] else s.cells) =
        s.cells
      rw [if_neg (by omega)]

/-- Witness for C7 on a fresh interpreter (pointer 0, tape `[0]`). -/
theorem C7_pointer_semantics_witness :
    IState.new.pointer < IState.new.cells.length ∧
    (((∃ e, evalDecrementPointer IState.new ⟨.DecrementPointer, ⟨2, 5⟩⟩ =
          .err IState.new e ∧ e.value = .PointerError ∧ e.location = ⟨2, 5⟩) ↔
        IState.new.pointer = 0) ∧
     (∀ s2 e, evalDecrementPointer IState.new ⟨.DecrementPointer, ⟨2, 5⟩⟩ =
        .err s2 e → s2 = IState.new) ∧
     (∃ s2, evalIncrementPointer IState.new ⟨.DecrementPointer, ⟨2, 5⟩⟩ = .ok s2 ∧
        s2.pointer = IState.new.pointer + 1 ∧
        s2.programCursor = IState.new.programCursor + 1 ∧
        (IState.new.pointer + 1 = IState.new.cells.length →
          s2.cells = IState.new.cells ++ [0]) ∧
        (IState.new.pointer + 1 ≠ IState.new.cells.length →
          s2.cells = IState.new.cells))) :=
  ⟨by decide, C7_pointer_semantics IState.new ⟨.DecrementPointer, ⟨2, 5⟩⟩ (by decide)⟩

/-- C8: `IncrementCell` and `DecrementCell` never fail (from any state with
the pointer in range), bump the program counter, leave the pointer alone,
and modify only the cell under the pointer, with 8-bit wraparound:
`255 + 1 = 0` and `0 - 1 = 255`. -/
theorem C8_cell_wraparound (s : IState) (cmd : Token)
    (hp : s.pointer < s.cells.length) :
    (∃ s2, evalIncrement s cmd = .ok s2 ∧
      s2.cells = s.cells.set s.pointer ((s.cells.getD s.pointer 0 + 1) % 256) ∧
      s2.pointer = s.pointer ∧
      s2.programCursor = s.programCursor + 1 ∧
      (∀ i, i ≠ s.pointer → s2.cells.getD i 0 = s.cells.getD i 0) ∧
      (s.cells.getD s.pointer 0 = 255 → s2.cells.getD s.pointer 0 = 0)) ∧
    (∃ s2, evalDecrement s cmd = .ok s2 ∧
      s2.cells = s.cells.set s.pointer ((s.cells.getD s.pointer 0 + 255) % 256) ∧
      s2.pointer = s.pointer ∧
      s2.programCursor = s.programCursor + 1 ∧
      (∀ i, i ≠ s.pointer → s2.cells.getD i 0 = s.cells.getD i 0) ∧
      (s.cells.getD s.pointer 0 = 0 → s2.cells.getD s.pointer 0 = 255)) := by
  constructor
  · refine ⟨{ s with
                cells := s.cells.set s.pointer ((s.cells.getD s.pointer 0 + 1) % 256)
                programCursor := s.programCursor + 1 }, ?_, rfl, rfl, rfl, ?_, ?_⟩
    · unfold evalIncrement
      rw [if_pos hp]
    · intro i hi
      show (s.cells.set s.pointer _).getD i 0 = s.cells.getD i 0
      rw [List.getD_eq_getElem?_getD, List.getD_eq_getElem?_getD,
        List.getElem?_set_ne (fun hc => hi hc.symm)]
      rw [← List.getD_eq_getElem?_getD]
    · intro hc
      show (s.cells.set s.pointer ((s.cells.getD s.pointer 0 + 1) % 256)).getD
        s.pointer 0 = 0
      rw [List.getD_eq_getElem?_getD, List.getElem?_set_self hp, hc]
      decide
  · refine ⟨{ s with
                cells := s.cells.set s.pointer ((s.cells.getD s.pointer 0 + 255) % 256)
                programCursor := s.programCursor + 1 }, ?_, rfl, rfl, rfl, ?_, ?_⟩
    · unfold evalDecrement
      rw [if_pos hp]
    · intro i hi
      show (s.cells.set s.pointer _).getD i 0 = s.cells.getD i 0
      rw [List.getD_eq_getElem?_getD, List.getD_eq_getElem?_getD,
        List.getElem?_set_ne (fun hc => hi hc.symm)]
      rw [← List.getD_eq_getElem?_getD]
    · intro hc
      show (s.cells.set s.pointer ((s.cells.getD s.pointer 0 + 255) % 256)).getD
        s.pointer 0 = 255
      rw [List.getD_eq_getElem?_getD, List.getElem?_set_self hp, hc]
      decide

/-- Witness for C8 on a fresh interpreter (whose single cell holds 0, so
the decrement wraparound premise is exercised). -/
theorem C8_cell_wraparound_witness :
    IState.new.pointer < IState.new.cells.length ∧
    ((∃ s2, evalIncrement IState.new ⟨.Increment, ⟨1, 1⟩⟩ = .ok s2 ∧
      s2.cells = IState.new.cells.set IState.new.pointer
        ((IState.new.cells.getD IState.new.pointer 0 + 1) % 256) ∧
      s2.pointer = IState.new.pointer ∧
      s2.programCursor = IState.new.programCursor + 1 ∧
      (∀ i, i ≠ IState.new.pointer → s2.cells.getD i 0 = IState.new.cells.getD i 0) ∧
      (IState.new.cells.getD IState.new.pointer 0 = 255 →
        s2.cells.getD IState.new.pointer 0 = 0)) ∧
    (∃ s2, evalDecrement IState.new ⟨.Increment, ⟨1, 1⟩⟩ = .ok s2 ∧
      s2.cells = IState.new.cells.set IState.new.pointer
        ((IState.new.cells.getD IState.new.pointer 0 + 255) % 256) ∧
      s2.pointer = IState.new.pointer ∧
      s2.programCursor = IState.new.programCursor + 1 ∧
      (∀ i, i ≠ IState.new.pointer → s2.cells.getD i 0 = IState.new.cells.getD i 0) ∧
      (IState.new.cells.getD IState.new.pointer 0 = 0 →
        s2.cells.getD IState.new.pointer 0 = 255))) :=
  ⟨by decide, C8_cell_wraparound IState.new ⟨.Increment, ⟨1, 1⟩⟩ (by decide)⟩

/-- Witness for C10 on the program `[]`. -/
theorem C10_lookup_never_panics_witness :
    initScan (lex "[]") 0 [] [] = ([(0, 1), (1, 0)], [], none) ∧
    ((∀ j, j < (lex "[]").length →
      (kindAt (lex "[]") j = .JumpForward ∨ kindAt (lex "[]") j = .JumpBackward) →
      tableGet [(0, 1), (1, 0)] j ≠ none) ∧
    (∀ s2, eval IState.new (lex "[]") 5 ≠ .panic s2 .jumpLookup)) :=
  ⟨by decide, C10_lookup_never_panics (lex "[]") [(0, 1), (1, 0)] 5 (by decide)⟩

end BF
